import Mathlib

/-!
Verification of the workflow orchestration engine
(`src/workflows/engine.py` together with `src/workflows/models.py`).

The Python code is shallowly embedded: Python runtime values become the
inductive `Value`; Python dicts become association lists with Python's
insertion-order update semantics (`dictInsert` / `dictGet`); the Python
`set` used by the dependency-graph builder becomes a duplicate-free list
(`setInsert`); exceptions become `Except` or explicit outcome
constructors that the corresponding `try/except` boundary consumes.
Wall-clock timestamps (`started_at`, `completed_at`,
`total_execution_time`) and the structlog calls are outside the model;
measured durations are abstract `Nat` time units carried by the agent
outcome.  The concrete agents (`TaskAgent`, `DecisionAgent`) are external
collaborators (spec section 6): the engine sees them only through the
`execute(inputs)` contract, so a run is parametrised by an `AgentMap`
giving each step's agent outcome.
-/

namespace Workflows

/-- Python runtime values as they flow through step inputs and outputs.
Numbers are modelled as integers; the claims never exercise genuine
floating-point behaviour. -/
inductive Value : Type where
  | null : Value
  | bool : Bool → Value
  | int : Int → Value
  | str : String → Value
  | list : List Value → Value
  | dict : List (String × Value) → Value

/-- Python truthiness (`if v:`): `None`, `False`, `0`, `""`, `[]` and
`{}` are falsy, everything else truthy. -/
def Value.truthy : Value → Bool
  | .null => false
  | .bool b => b
  | .int n => n != 0
  | .str s => s != ""
  | .list xs => !xs.isEmpty
  | .dict xs => !xs.isEmpty

/-- Truthiness of an `Optional` Python value (`None` is falsy). -/
def optTruthy : Option Value → Bool
  | none => false
  | some v => v.truthy

/-- Python `dict` lookup (`d.get(k)` / `k in d`) on the association-list
model of a dict. -/
def dictGet {α : Type} (k : String) : List (String × α) → Option α
  | [] => none
  | (k1, v) :: rest => if k1 = k then some v else dictGet k rest

/-- Python `dict` assignment `d[k] = v`: an existing key keeps its
insertion position, a new key is appended at the end. -/
def dictInsert {α : Type} (k : String) (v : α) : List (String × α) → List (String × α)
  | [] => [(k, v)]
  | (k1, v1) :: rest => if k1 = k then (k, v) :: rest else (k1, v1) :: dictInsert k v rest

mutual
/-- Python structural equality `==` on the modelled values.  (The
cross-type numeric equalities of CPython, such as `True == 1`, are not
modelled: `Value` keeps bools and ints distinct.) -/
def Value.beq : Value → Value → Bool
  | .null, .null => true
  | .bool a, .bool b => a == b
  | .int a, .int b => a == b
  | .str a, .str b => a == b
  | .list a, .list b => Value.beqList a b
  | .dict a, .dict b => Value.beqDict a b
  | _, _ => false

/-- Elementwise `==` on Python lists. -/
def Value.beqList : List Value → List Value → Bool
  | [], [] => true
  | a :: as1, b :: bs1 => Value.beq a b && Value.beqList as1 bs1
  | _, _ => false

/-- Entrywise `==` on Python dicts (the model compares insertion order
too; the engine only ever compares scalars here). -/
def Value.beqDict : List (String × Value) → List (String × Value) → Bool
  | [], [] => true
  | (k, a) :: as1, (l, b) :: bs1 => k == l && Value.beq a b && Value.beqDict as1 bs1
  | _, _ => false
end

mutual
/-- Python `repr` of a value (string quoting is simplified to bare
single quotes; only the `contains` operator ever stringifies). -/
def pyRepr : Value → String
  | .null => "None"
  | .bool b => if b then "True" else "False"
  | .int n => toString n
  | .str s => "\x27" ++ s ++ "\x27"
  | .list xs => "[" ++ pyReprList xs ++ "]"
  | .dict xs => "\x7b" ++ pyReprDict xs ++ "\x7d"

/-- Comma-separated `repr` of list elements. -/
def pyReprList : List Value → String
  | [] => ""
  | [v] => pyRepr v
  | v :: rest => pyRepr v ++ ", " ++ pyReprList rest

/-- Comma-separated `repr` of dict entries. -/
def pyReprDict : List (String × Value) → String
  | [] => ""
  | [(k, v)] => "\x27" ++ k ++ "\x27: " ++ pyRepr v
  | (k, v) :: rest => "\x27" ++ k ++ "\x27: " ++ pyRepr v ++ ", " ++ pyReprDict rest
end

/-- Python `str(v)`: identity on strings, `repr` otherwise. -/
def pyStr : Value → String
  | .str s => s
  | v => pyRepr v

/-- Substring test on character lists (`needle in hay` for Python
strings). -/
def subSeqAt : List Char → List Char → Bool
  | [], needle => needle.isEmpty
  | hay@(_ :: t), needle => needle.isPrefixOf hay || subSeqAt t needle

/-- Python `needle in hay` on strings. -/
def strContains (hay needle : String) : Bool :=
  subSeqAt hay.data needle.data

/-- Splitting accumulator for `splitOnChar`. -/
def splitOnCharAux (sep : Char) : List Char → List Char → List String
  | [], acc => [String.mk acc.reverse]
  | c :: cs, acc =>
    if c = sep then String.mk acc.reverse :: splitOnCharAux sep cs []
    else splitOnCharAux sep cs (c :: acc)

/-- Python `s.split(sep)` for a one-character separator (the engine only
splits on a dot). -/
def splitOnChar (sep : Char) (s : String) : List String :=
  splitOnCharAux sep s.data []

/-- Python `s.startswith(pre)`. -/
def strStartsWith (s pre : String) : Bool :=
  pre.data.isPrefixOf s.data

/-- Python `s.endswith(suf)`. -/
def strEndsWith (s suf : String) : Bool :=
  suf.data.isSuffixOf s.data

/-- Python `s[n:]` (by code points). -/
def strDrop (s : String) (n : Nat) : String :=
  String.mk (s.data.drop n)

/-- Python `s[:-n]` (by code points). -/
def strDropRight (s : String) (n : Nat) : String :=
  String.mk ((s.data.reverse.drop n).reverse)

/-- Python `s.strip()`. -/
def pyStrip (s : String) : String :=
  String.mk (((s.data.dropWhile Char.isWhitespace).reverse.dropWhile Char.isWhitespace).reverse)

/-- Digits-to-number helper for `float(str)`. -/
def natFromDigits (cs : List Char) : Nat :=
  cs.foldl (fun n c => n * 10 + (c.toNat - 48)) 0

/-- Python `float(s)` on a string, as an exact rational: optional sign,
decimal digits, optional fractional part.  (Exponent notation, `inf` and
`nan` are not modelled; no claim exercises them.) -/
def pyFloatOfString (s : String) : Except String Rat :=
  let t := pyStrip s
  let sign : Rat := if strStartsWith t "-" then -1 else 1
  let body := if strStartsWith t "-" || strStartsWith t "+" then strDrop t 1 else t
  match splitOnChar (Char.ofNat 46) body with
  | [ip] =>
    if ip.length > 0 && ip.data.all Char.isDigit then
      .ok (sign * (natFromDigits ip.data : Rat))
    else .error ("ValueError: could not convert string to float: " ++ s)
  | [ip, fp] =>
    if (ip.length + fp.length > 0) && ip.data.all Char.isDigit && fp.data.all Char.isDigit then
      .ok (sign * ((natFromDigits ip.data : Rat) +
        (natFromDigits fp.data : Rat) / ((10 : Rat) ^ fp.length)))
    else .error ("ValueError: could not convert string to float: " ++ s)
  | _ => .error ("ValueError: could not convert string to float: " ++ s)

/-- Python `float(v)` with CPython's coercion rules; floats are modelled
as exact rationals. -/
def pyFloat : Value → Except String Rat
  | .null => .error "TypeError: float() argument must be a string or a number, not NoneType"
  | .bool b => .ok (if b then 1 else 0)
  | .int n => .ok (n : Rat)
  | .str s => pyFloatOfString s
  | .list _ => .error "TypeError: float() argument must be a string or a number, not list"
  | .dict _ => .error "TypeError: float() argument must be a string or a number, not dict"

/-- `WorkflowStatus` from `src/workflows/models.py`. -/
inductive WorkflowStatus where
  | pending
  | running
  | completed
  | failed
  | cancelled
  | paused
deriving DecidableEq, Repr

/-- `StepCondition` from `src/workflows/models.py`. -/
structure StepCondition where
  type : String
  field : String
  value : Value
  operator : String := "equals"

/-- `WorkflowStep` from `src/workflows/models.py`. -/
structure WorkflowStep where
  id : String
  name : String
  agent_type : String
  agent_config : List (String × Value) := []
  inputs : List (String × Value) := []
  depends_on : List String := []
  condition : Option StepCondition := none
  retry_on_failure : Bool := true
  timeout : Nat := 300
  parallel : Bool := false

/-- `StepResult` from `src/workflows/models.py` (`started_at` and
`completed_at` are wall-clock timestamps, outside the model;
`execution_time` is in abstract time units). -/
structure StepResult where
  step_id : String
  status : WorkflowStatus
  output : Option Value := none
  error : Option String := none
  execution_time : Nat := 0
  metadata : List (String × Value) := []

/-- `WorkflowConfig` from `src/workflows/models.py`. -/
structure WorkflowConfig where
  name : String
  description : String := ""
  version : String := "1.0.0"
  max_retries : Nat := 3
  timeout : Nat := 3600
  parallel_execution : Bool := false
  on_failure : String := "stop"
  save_intermediate : Bool := true
  metadata : List (String × Value) := []

/-- `Workflow` from `src/workflows/models.py` (`created_at` and
`updated_at` timestamps omitted). -/
structure Workflow where
  id : String
  config : WorkflowConfig
  steps : List WorkflowStep

/-- `WorkflowResult` from `src/workflows/models.py` (timestamps and
`total_execution_time` omitted as wall-clock quantities). -/
structure WorkflowResult where
  workflow_id : String
  status : WorkflowStatus
  step_results : List (String × StepResult) := []
  final_output : Option Value := none
  error : Option String := none
  metadata : List (String × Value) := []

/-- `WorkflowExecutionContext` from `src/workflows/models.py`
(`started_at` omitted). -/
structure WorkflowExecutionContext where
  workflow_id : String
  current_step : Option String := none
  completed_steps : List String := []
  step_outputs : List (String × Value) := []
  «variables» : List (String × Value) := []

/-!  The engine (`src/workflows/engine.py`, class `WorkflowEngine`).
The `running_workflows` registry is per-engine bookkeeping that no claim
touches and is omitted. -/

/-- Model of a Python `set` of strings as a duplicate-free list:
`s.add(x)` keeps the set unchanged when `x` is already present. -/
def setInsert (s : List String) (x : String) : List String :=
  if x ∈ s then s else s ++ [x]

/-- Python `s.update(xs)` on the set model. -/
def setInsertMany (s : List String) (xs : List String) : List String :=
  xs.foldl setInsert s

/-- The scan condition of `_build_dependency_graph`: the step is not yet
completed and all its dependencies are. -/
def stepReady (completed : List String) (s : WorkflowStep) : Bool :=
  !completed.contains s.id && s.depends_on.all fun d => completed.contains d

/-- The `while len(completed) < len(steps)` loop of
`_build_dependency_graph`.  Each pass either breaks (no step is ready:
circular or missing dependencies, logged and surfaced as a truncated
level list) or grows `completed` by at least one id, so
`steps.length + 1` units of fuel always outlast the Python loop. -/
def buildLoop (steps : List WorkflowStep) : Nat → List String → List (List WorkflowStep)
  | 0, _ => []
  | fuel + 1, completed =>
    if completed.length < steps.length then
      if (steps.filter (stepReady completed)).isEmpty then
        []
      else
        (steps.filter (stepReady completed)) ::
          buildLoop steps fuel
            (setInsertMany completed ((steps.filter (stepReady completed)).map (·.id)))
    else []

/-- `WorkflowEngine._build_dependency_graph` (engine.py lines 146-185). -/
def buildDependencyGraph (steps : List WorkflowStep) : List (List WorkflowStep) :=
  buildLoop steps (steps.length + 1) []

/-- The `for part in parts[1:]` walk of `_get_context_value`: dict
lookups on the remaining dot-separated segments, degrading to `None`
(here `Value.null`) when a segment is missing or the value is not a
dict. -/
def walkPath : Value → List String → Value
  | v, [] => v
  | .dict d, p :: rest =>
    walkPath (match dictGet p d with | some x => x | none => .null) rest
  | _, _ :: _ => .null

/-- `WorkflowEngine._get_context_value` (engine.py lines 374-395): if
the first dot-segment is a key of `step_outputs`, walk the rest of the
path inside that output; otherwise look the whole path up in
`variables`.  Python's `None` results are `Value.null`.  The `[]` branch
is unreachable: splitting never yields an empty list. -/
def getContextValue (path : String) (ctx : WorkflowExecutionContext) : Value :=
  match splitOnChar (Char.ofNat 46) path with
  | [] => .null
  | p :: rest =>
    match dictGet p ctx.step_outputs with
    | some v => walkPath v rest
    | none =>
      match dictGet path ctx.variables with
      | some v => v
      | none => .null

/-- Template detection and resolution for one input value: a string that
is entirely wrapped as a template marker resolves through the context,
everything else passes through unchanged. -/
def resolveTemplate (v : Value) (ctx : WorkflowExecutionContext) : Value :=
  match v with
  | .str s =>
    if strStartsWith s "\x7b\x7b" && strEndsWith s "\x7d\x7d" then
      getContextValue (pyStrip (strDropRight (strDrop s 2) 2)) ctx
    else .str s
  | v => v

/-- `WorkflowEngine._resolve_inputs` (engine.py lines 348-372). -/
def resolveInputs (inputs : List (String × Value)) (ctx : WorkflowExecutionContext) :
    List (String × Value) :=
  inputs.foldl (fun resolved kv => dictInsert kv.1 (resolveTemplate kv.2 ctx) resolved) []

/-- `WorkflowEngine._evaluate_condition` (engine.py lines 397-423).
A raised `TypeError`/`ValueError` from `in` or `float()` is an
`Except.error`, consumed by `_execute_step`'s catch-all.  An
unrecognised operator evaluates to `false`. -/
def evaluateCondition (condition : StepCondition) (ctx : WorkflowExecutionContext) :
    Except String Bool :=
  let value := getContextValue condition.field ctx
  if condition.operator = "equals" then .ok (Value.beq value condition.value)
  else if condition.operator = "not_equals" then .ok (!Value.beq value condition.value)
  else if condition.operator = "contains" then
    match condition.value with
    | .str needle => .ok (strContains (pyStr value) needle)
    | _ => .error "TypeError: a string is required as left operand of in"
  else if condition.operator = "greater_than" then
    match pyFloat value with
    | .error e => .error e
    | .ok a =>
      match pyFloat condition.value with
      | .error e => .error e
      | .ok b => .ok (decide (b < a))
  else if condition.operator = "less_than" then
    match pyFloat value with
    | .error e => .error e
    | .ok a =>
      match pyFloat condition.value with
      | .error e => .error e
      | .ok b => .ok (decide (a < b))
  else .ok false

/-- `AgentResult` from `src/agents/base.py`. -/
structure AgentResult where
  success : Bool
  data : Option Value := none
  error : Option String := none
  metadata : List (String × Value) := []
  execution_time : Nat := 0

/-- Outcome of `await asyncio.wait_for(agent.execute(inputs),
timeout=step.timeout)` for one step: the agent returned a result after
`elapsed` time units, the per-step timeout fired, or the coroutine
raised (`msg` is `str(e)`).  Construction failures of `_create_agent`
for a known agent type are also raises. -/
inductive AgentOutcome where
  | ok (r : AgentResult) (elapsed : Nat)
  | timeout (elapsed : Nat)
  | raises (msg : String) (elapsed : Nat)

/-- The engine's view of the agent layer: each step id, applied to its
resolved inputs, produces an outcome.  Spec section 6 makes the concrete
agents external collaborators, so a run is parametrised by this map. -/
def AgentMap : Type :=
  String → List (String × Value) → AgentOutcome

/-- `WorkflowEngine._execute_step` (engine.py lines 245-332): condition
check, input resolution, agent dispatch, result capture.  Every raise
(condition evaluation errors, unknown agent type from `_create_agent`,
agent exceptions, per-step timeout) is converted to a `failed`
`StepResult` by the `try/except` boundaries in the source, so the model
is a total function.  The returned context carries the
`context.current_step = step.id` write. -/
def executeStep (agents : AgentMap) (step : WorkflowStep) (wf : Workflow)
    (ctx0 : WorkflowExecutionContext) : StepResult × WorkflowExecutionContext :=
  let ctx := { ctx0 with current_step := some step.id }
  let runAgent : StepResult :=
    if step.agent_type != "task" && step.agent_type != "decision" then
      { step_id := step.id, status := .failed,
        error := some ("Unknown agent type: " ++ step.agent_type), execution_time := 0 }
    else
      match agents step.id (resolveInputs step.inputs ctx) with
      | .ok r e =>
        if r.success then
          { step_id := step.id, status := .completed, output := r.data,
            execution_time := e, metadata := r.metadata }
        else
          { step_id := step.id, status := .failed, error := r.error,
            execution_time := e, metadata := r.metadata }
      | .timeout e =>
        { step_id := step.id, status := .failed,
          error := some ("Step execution timed out after " ++ toString step.timeout
            ++ " seconds"),
          execution_time := e }
      | .raises msg e =>
        { step_id := step.id, status := .failed, error := some msg, execution_time := e }
  match step.condition with
  | none => (runAgent, ctx)
  | some c =>
    match evaluateCondition c ctx with
    | .error e =>
      ({ step_id := step.id, status := .failed, error := some e, execution_time := 0 }, ctx)
    | .ok true => (runAgent, ctx)
    | .ok false =>
      ({ step_id := step.id, status := .completed,
         output := some (.dict [("skipped", .bool true), ("reason", .str "condition_not_met")]),
         execution_time := 0 }, ctx)

/-- `WorkflowEngine._execute_step_batch_sequential` (engine.py lines
217-243): a dict of per-step results, built in level order. -/
def executeStepBatchSequential (agents : AgentMap) (steps : List WorkflowStep)
    (wf : Workflow) (ctx : WorkflowExecutionContext) :
    List (String × StepResult) × WorkflowExecutionContext :=
  steps.foldl
    (fun acc step =>
      let sr := executeStep agents step wf acc.2
      (dictInsert step.id sr.1 acc.1, sr.2))
    ([], ctx)

/-- `WorkflowEngine._execute_step_batch_parallel` (engine.py lines
187-215).  No step of a level writes `step_outputs` or `variables`
during the batch, so each gathered task reads the same entry context;
results land keyed by step id in `zip` order.  `_execute_step` already
converts every `Exception` internally, so the `isinstance(result,
Exception)` conversion after `asyncio.gather(..., return_exceptions=
True)` has nothing left to convert in the model.  `current_step` after
the join is modelled as the last step of the level. -/
def executeStepBatchParallel (agents : AgentMap) (steps : List WorkflowStep)
    (wf : Workflow) (ctx : WorkflowExecutionContext) :
    List (String × StepResult) × WorkflowExecutionContext :=
  let results := steps.foldl
    (fun acc step => dictInsert step.id (executeStep agents step wf ctx).1 acc) []
  match steps.getLast? with
  | some s => (results, { ctx with current_step := some s.id })
  | none => (results, ctx)

/-- Helper for the engine's failure message: Python's f-string renders
`None` as the text `None`. -/
def optErrStr : Option String → String
  | some e => e
  | none => "None"

/-- The `for step_id, step_result in batch_results.items()` merge loop
of `WorkflowEngine.execute` (engine.py lines 84-105): store the result,
record the completed step, record the output when truthy, then apply
the failure policy — `stop` and `rollback` set the run to `failed` and
break out of the merge (the rollback hook `_rollback_workflow` is a
logging-only stub). -/
def storeResults (onFailure : String) :
    List (String × StepResult) → WorkflowExecutionContext → WorkflowResult →
    WorkflowExecutionContext × WorkflowResult
  | [], ctx, result => (ctx, result)
  | (step_id, step_result) :: rest, ctx, result =>
    let result1 :=
      { result with step_results := dictInsert step_id step_result result.step_results }
    let ctx1 := { ctx with completed_steps := ctx.completed_steps ++ [step_id] }
    let ctx2 :=
      if optTruthy step_result.output then
        { ctx1 with
          step_outputs := dictInsert step_id (step_result.output.getD .null) ctx1.step_outputs }
      else ctx1
    if step_result.status = .failed then
      if onFailure = "stop" then
        (ctx2, { result1 with
                 status := .failed
                 error := some ("Step " ++ step_id ++ " failed: "
                   ++ optErrStr step_result.error) })
      else if onFailure = "rollback" then
        (ctx2, { result1 with
                 status := .failed
                 error := some ("Workflow rolled back due to step " ++ step_id
                   ++ " failure") })
      else storeResults onFailure rest ctx2 result1
    else storeResults onFailure rest ctx2 result1

/-- The `for step_batch in dependency_graph` loop of
`WorkflowEngine.execute` (engine.py lines 73-105): run each level
(parallel when configured and the level has more than one step), merge
its results, and stop as soon as the run is `failed`. -/
def runLevels (agents : AgentMap) (wf : Workflow) :
    List (List WorkflowStep) → WorkflowExecutionContext → WorkflowResult →
    WorkflowExecutionContext × WorkflowResult
  | [], ctx, result => (ctx, result)
  | step_batch :: rest, ctx, result =>
    let batch :=
      if wf.config.parallel_execution && step_batch.length > 1 then
        executeStepBatchParallel agents step_batch wf ctx
      else
        executeStepBatchSequential agents step_batch wf ctx
    let merged := storeResults wf.config.on_failure batch.1 batch.2 result
    if merged.2.status = .failed then (merged.1, merged.2)
    else runLevels agents wf rest merged.1 merged.2

/-- `WorkflowEngine.execute` (engine.py lines 33-144).  Nothing inside
the `try` body can raise in the model — each raise is converted at an
inner boundary — so the boundary `except asyncio.TimeoutError` and
`except Exception` arms are unreachable; in particular no code path
applies `workflow.config.timeout`.  A run that does not fail finishes
`completed`, with `final_output` looked up from `step_outputs` under the
id of the last step in the original step ordering. -/
def execute (agents : AgentMap) (workflow : Workflow)
    (initial_input : List (String × Value)) : WorkflowResult :=
  let ctx : WorkflowExecutionContext :=
    { workflow_id := workflow.id, «variables» := initial_input }
  let result : WorkflowResult :=
    { workflow_id := workflow.id, status := .running }
  let graph := buildDependencyGraph workflow.steps
  let final := runLevels agents workflow graph ctx result
  if final.2.status != .failed then
    match workflow.steps.getLast? with
    | some last =>
      { final.2 with
        status := .completed
        final_output := dictGet last.id final.1.step_outputs }
    | none => { final.2 with status := .completed }
  else final.2

/-! Auxiliary lemmas about the dict and set models. -/

theorem dictGet_insert_self {α : Type} (k : String) (v : α) (l : List (String × α)) :
    dictGet k (dictInsert k v l) = some v := by
  induction l with
  | nil => simp [dictInsert, dictGet]
  | cons kv rest ih =>
    obtain ⟨k1, v1⟩ := kv
    by_cases h : k1 = k
    · simp [dictInsert, h, dictGet]
    · simp [dictInsert, h, dictGet, ih]

theorem dictGet_insert_of_ne {α : Type} {k k1 : String} (h : k ≠ k1) (v : α)
    (l : List (String × α)) : dictGet k1 (dictInsert k v l) = dictGet k1 l := by
  induction l with
  | nil => simp [dictInsert, dictGet, h]
  | cons kv rest ih =>
    obtain ⟨k2, v2⟩ := kv
    by_cases h2 : k2 = k
    · subst h2
      simp [dictInsert, dictGet, h]
    · simp [dictInsert, h2, dictGet, ih]

theorem dictInsert_of_get_none {α : Type} {k : String} {l : List (String × α)}
    (h : dictGet k l = none) (v : α) : dictInsert k v l = l ++ [(k, v)] := by
  induction l with
  | nil => simp [dictInsert]
  | cons kv rest ih =>
    obtain ⟨k1, v1⟩ := kv
    by_cases h1 : k1 = k
    · simp [dictGet, h1] at h
    · simp [dictGet, h1] at h
      simp [dictInsert, h1, ih h]

theorem dictGet_append_of_none {α : Type} {k : String} {l1 : List (String × α)}
    (h : dictGet k l1 = none) (l2 : List (String × α)) :
    dictGet k (l1 ++ l2) = dictGet k l2 := by
  induction l1 with
  | nil => simp
  | cons kv rest ih =>
    obtain ⟨k1, v1⟩ := kv
    by_cases h1 : k1 = k
    · simp [dictGet, h1] at h
    · simp [dictGet, h1] at h ⊢
      exact ih h

theorem mem_setInsert {s : List String} {x y : String} :
    y ∈ setInsert s x ↔ y ∈ s ∨ y = x := by
  unfold setInsert
  by_cases h : x ∈ s
  · simp only [h, if_true]
    constructor
    · exact Or.inl
    · rintro (h1 | rfl)
      · exact h1
      · exact h
  · simp [h]

theorem setInsert_nodup {s : List String} (h : s.Nodup) (x : String) :
    (setInsert s x).Nodup := by
  unfold setInsert
  by_cases hx : x ∈ s
  · simpa [hx] using h
  · simp only [hx, if_false]
    rw [List.nodup_append]
    exact ⟨h, List.nodup_singleton x,
      fun a ha hax => hx ((List.mem_singleton.mp hax) ▸ ha)⟩

theorem mem_setInsertMany {s xs : List String} {y : String} :
    y ∈ setInsertMany s xs ↔ y ∈ s ∨ y ∈ xs := by
  induction xs generalizing s with
  | nil => simp [setInsertMany]
  | cons x xs ih =>
    show y ∈ setInsertMany (setInsert s x) xs ↔ _
    rw [ih, mem_setInsert]
    simp only [List.mem_cons]
    tauto

theorem setInsertMany_nodup {s : List String} (h : s.Nodup) (xs : List String) :
    (setInsertMany s xs).Nodup := by
  induction xs generalizing s with
  | nil => exact h
  | cons x xs ih => exact ih (setInsert_nodup h x)

theorem optTruthy_iff {o : Option Value} :
    optTruthy o = true ↔ ∃ v, o = some v ∧ v.truthy = true := by
  cases o with
  | none => simp [optTruthy]
  | some v => simp [optTruthy]

/-- Minimal element of a nonempty list under a natural-number measure. -/
theorem exists_min_by {α : Type} (f : α → Nat) :
    ∀ {l : List α}, l ≠ [] → ∃ a ∈ l, ∀ b ∈ l, f a ≤ f b := by
  intro l
  induction l with
  | nil => intro h; exact absurd rfl h
  | cons x xs ih =>
    intro _
    cases xs with
    | nil => exact ⟨x, by simp, by simp⟩
    | cons y ys =>
      obtain ⟨a, ha, hmin⟩ := ih (by simp)
      by_cases hc : f x ≤ f a
      · refine ⟨x, by simp, ?_⟩
        intro b hb
        rcases List.mem_cons.mp hb with rfl | hb
        · exact Nat.le_refl _
        · exact Nat.le_trans hc (hmin b hb)
      · refine ⟨a, List.mem_cons_of_mem x ha, ?_⟩
        intro b hb
        rcases List.mem_cons.mp hb with rfl | hb
        · exact Nat.le_of_lt (Nat.lt_of_not_le hc)
        · exact hmin b hb

/-! Correctness development for the dependency-graph builder. -/

/-- The ids of a list of steps. -/
def stepIds (steps : List WorkflowStep) : List String :=
  steps.map (·.id)

/-- Dependency closure of a level list: each level's steps depend only
on ids accumulated from `completed` and the earlier levels. -/
def depsSat (completed : List String) : List (List WorkflowStep) → Prop
  | [] => True
  | lvl :: rest =>
    (∀ s ∈ lvl, ∀ d ∈ s.depends_on, d ∈ completed) ∧
      depsSat (setInsertMany completed (lvl.map (·.id))) rest

theorem id_inj {steps : List WorkflowStep} (H1 : (stepIds steps).Nodup)
    {s t : WorkflowStep} (hs : s ∈ steps) (ht : t ∈ steps) (h : s.id = t.id) : s = t :=
  List.inj_on_of_nodup_map H1 hs ht h

theorem mem_stepIds {steps : List WorkflowStep} {x : String} :
    x ∈ stepIds steps ↔ ∃ s ∈ steps, s.id = x := by
  simp [stepIds]

/-- Progress: in an acyclic, dependency-closed step list, a scan over a
nonempty remainder always finds at least one ready step (a remaining
step of minimal rank). -/
theorem scan_progress {steps : List WorkflowStep} (rank : String → Nat)
    (H2 : ∀ s ∈ steps, ∀ d ∈ s.depends_on, d ∈ stepIds steps)
    (H3 : ∀ s ∈ steps, ∀ d ∈ s.depends_on, rank d < rank s.id)
    (completed : List String)
    (hne : steps.filter (fun s => !completed.contains s.id) ≠ []) :
    steps.filter (stepReady completed) ≠ [] := by
  obtain ⟨s, hs, hmin⟩ := exists_min_by (fun s => rank s.id) hne
  have hsf := List.mem_filter.mp hs
  have hss : s ∈ steps := hsf.1
  have hsc : s.id ∉ completed := by simpa using hsf.2
  have hready : stepReady completed s = true := by
    unfold stepReady
    rw [Bool.and_eq_true]
    constructor
    · simpa using hsc
    · rw [List.all_eq_true]
      intro d hd
      by_contra hdc
      have hdnc : d ∉ completed := by simpa using hdc
      obtain ⟨t, ht, htid⟩ := mem_stepIds.mp (H2 s hss d hd)
      have htrem : t ∈ steps.filter (fun s => !completed.contains s.id) := by
        rw [List.mem_filter]
        refine ⟨ht, ?_⟩
        simpa [htid] using hdnc
      have hle := hmin t htrem
      have hlt := H3 s hss d hd
      rw [← htid] at hlt
      omega
  exact List.ne_nil_of_mem (List.mem_filter.mpr ⟨hss, hready⟩)

/-- While any step remains, the completed set (all of whose members are
genuine step ids) is strictly smaller than the step list. -/
theorem completed_lt_of_remaining_ne {steps : List WorkflowStep}
    (H1 : (stepIds steps).Nodup) {completed : List String} (hnd : completed.Nodup)
    (hsub : ∀ x ∈ completed, x ∈ stepIds steps)
    (hne : steps.filter (fun s => !completed.contains s.id) ≠ []) :
    completed.length < steps.length := by
  obtain ⟨s0, hs0⟩ := List.exists_mem_of_ne_nil _ hne
  have h1 := List.mem_filter.mp hs0
  have hs0s : s0 ∈ steps := h1.1
  have hs0c : s0.id ∉ completed := by simpa using h1.2
  have hmemids : s0.id ∈ stepIds steps := mem_stepIds.mpr ⟨s0, hs0s, rfl⟩
  have hsubE : completed ⊆ (stepIds steps).erase s0.id := by
    intro x hx
    have hxid : x ∈ stepIds steps := hsub x hx
    have hxne : x ≠ s0.id := fun h => hs0c (h ▸ hx)
    exact (List.mem_erase_of_ne hxne).mpr hxid
  have hlen := (List.subperm_of_subset hnd hsubE).length_le
  have herase : ((stepIds steps).erase s0.id).length = (stepIds steps).length - 1 :=
    List.length_erase_of_mem hmemids
  have hids : (stepIds steps).length = steps.length := by simp [stepIds]
  have hpos : 0 < steps.length := List.length_pos_of_mem hs0s
  omega

/-- The ready filter refines the remaining filter. -/
theorem current_eq_filter_and (steps : List WorkflowStep) (completed : List String) :
    steps.filter (stepReady completed)
      = steps.filter (fun s => !completed.contains s.id && stepReady completed s) := by
  apply List.filter_congr
  intro s _
  unfold stepReady
  cases h : completed.contains s.id <;> rfl

/-- After marking the scanned level completed, the remainder is exactly
the previously remaining steps that were not ready. -/
theorem remaining_after_update {steps : List WorkflowStep}
    (H1 : (stepIds steps).Nodup) (completed : List String) :
    steps.filter (fun s =>
        !(setInsertMany completed
          ((steps.filter (stepReady completed)).map (·.id))).contains s.id)
      = steps.filter (fun s => !completed.contains s.id && !stepReady completed s) := by
  apply List.filter_congr
  intro s hs
  have hcur : s.id ∈ (steps.filter (stepReady completed)).map (·.id)
      ↔ stepReady completed s = true := by
    constructor
    · intro h
      obtain ⟨t, htc, htid⟩ := List.mem_map.mp h
      have hts : t ∈ steps := List.mem_of_mem_filter htc
      have hteq : t = s := id_inj H1 hts hs htid
      subst hteq
      exact (List.mem_filter.mp htc).2
    · intro h
      exact List.mem_map.mpr ⟨s, List.mem_filter.mpr ⟨hs, h⟩, rfl⟩
  rw [Bool.eq_iff_iff]
  constructor
  · intro hL
    have hnm : s.id ∉ setInsertMany completed
        ((steps.filter (stepReady completed)).map (·.id)) := by simpa using hL
    rw [mem_setInsertMany] at hnm
    push_neg at hnm
    have h2 : stepReady completed s = false := by
      rcases Bool.eq_false_or_eq_true (stepReady completed s) with h | h
      · exact absurd (hcur.mpr h) hnm.2
      · exact h
    simp [hnm.1, h2]
  · intro hR
    have h1 : s.id ∉ completed := by
      intro hc
      simp [hc] at hR
    have h2 : stepReady completed s = false := by
      rcases Bool.eq_false_or_eq_true (stepReady completed s) with h | h
      · simp [h] at hR
      · exact h
    have hnm : s.id ∉ setInsertMany completed
        ((steps.filter (stepReady completed)).map (·.id)) := by
      rw [mem_setInsertMany]
      push_neg
      refine ⟨h1, fun hm => ?_⟩
      rw [hcur.mp hm] at h2
      cases h2
    simpa using hnm

/-- A filter splits, up to permutation, into the conjunctive refinements
by a second predicate. -/
theorem filter_perm_split {α : Type} (l : List α) (p q : α → Bool) :
    List.Perm (l.filter p)
      (l.filter (fun a => p a && q a) ++ l.filter (fun a => p a && !q a)) := by
  induction l with
  | nil => simp
  | cons a l ih =>
    by_cases hp : p a
    · by_cases hq : q a
      · simpa [List.filter_cons, hp, hq] using ih.cons a
      · simp only [List.filter_cons, hp, hq, Bool.and_true, Bool.and_false, if_true,
          Bool.not_false, Bool.not_true, Bool.true_and, Bool.false_and, if_false]
        exact (ih.cons a).trans List.perm_middle.symm
    · simpa [List.filter_cons, hp] using ih

/-- Main loop invariant of `_build_dependency_graph`: with enough fuel,
the emitted levels are a permutation of the remaining steps and are
dependency-closed over the completed set. -/
theorem buildLoop_spec (steps : List WorkflowStep) (rank : String → Nat)
    (H1 : (stepIds steps).Nodup)
    (H2 : ∀ s ∈ steps, ∀ d ∈ s.depends_on, d ∈ stepIds steps)
    (H3 : ∀ s ∈ steps, ∀ d ∈ s.depends_on, rank d < rank s.id) :
    ∀ (fuel : Nat) (completed : List String), completed.Nodup →
      (∀ x ∈ completed, x ∈ stepIds steps) →
      (steps.filter (fun s => !completed.contains s.id)).length ≤ fuel →
      List.Perm (buildLoop steps fuel completed).flatten
          (steps.filter (fun s => !completed.contains s.id)) ∧
        depsSat completed (buildLoop steps fuel completed) := by
  intro fuel
  induction fuel with
  | zero =>
    intro completed _ _ hlen
    have hrem : steps.filter (fun s => !completed.contains s.id) = [] :=
      List.eq_nil_of_length_eq_zero (Nat.le_zero.mp hlen)
    rw [buildLoop]
    exact ⟨by rw [hrem]; rfl, trivial⟩
  | succ fuel ih =>
    intro completed hnd hsub hlen
    by_cases hrem : steps.filter (fun s => !completed.contains s.id) = []
    · have hcur : steps.filter (stepReady completed) = [] := by
        rcases hc : steps.filter (stepReady completed) with _ | ⟨t, rest⟩
        · rfl
        · exfalso
          have htc : t ∈ steps.filter (stepReady completed) := by rw [hc]; simp
          have hts : t ∈ steps := List.mem_of_mem_filter htc
          have htr := (List.mem_filter.mp htc).2
          have htid : (!completed.contains t.id) = true := by
            unfold stepReady at htr
            rw [Bool.and_eq_true] at htr
            exact htr.1
          have : t ∈ steps.filter (fun s => !completed.contains s.id) :=
            List.mem_filter.mpr ⟨hts, htid⟩
          rw [hrem] at this
          cases this
      rw [buildLoop]
      by_cases hg : completed.length < steps.length
      · rw [if_pos hg, if_pos (by rw [hcur]; rfl)]
        exact ⟨by rw [hrem]; rfl, trivial⟩
      · rw [if_neg hg]
        exact ⟨by rw [hrem]; rfl, trivial⟩
    · have hg : completed.length < steps.length :=
        completed_lt_of_remaining_ne H1 hnd hsub hrem
      have hcne : steps.filter (stepReady completed) ≠ [] :=
        scan_progress rank H2 H3 completed hrem
      rw [buildLoop, if_pos hg, if_neg (by simpa [List.isEmpty_iff] using hcne)]
      have hnd2 : (setInsertMany completed
          ((steps.filter (stepReady completed)).map (·.id))).Nodup :=
        setInsertMany_nodup hnd _
      have hsub2 : ∀ x ∈ setInsertMany completed
          ((steps.filter (stepReady completed)).map (·.id)), x ∈ stepIds steps := by
        intro x hx
        rw [mem_setInsertMany] at hx
        rcases hx with hx | hx
        · exact hsub x hx
        · obtain ⟨t, ht, rfl⟩ := List.mem_map.mp hx
          exact mem_stepIds.mpr ⟨t, List.mem_of_mem_filter ht, rfl⟩
      have hsplit : List.Perm (steps.filter (fun s => !completed.contains s.id))
          ((steps.filter (stepReady completed)) ++
            steps.filter (fun s => !completed.contains s.id && !stepReady completed s)) := by
        have h0 := filter_perm_split steps (fun s => !completed.contains s.id)
          (stepReady completed)
        rw [← current_eq_filter_and] at h0
        exact h0
      have hremupd := remaining_after_update H1 completed
      have hlen2 : (steps.filter (fun s => !(setInsertMany completed
          ((steps.filter (stepReady completed)).map (·.id))).contains s.id)).length
            ≤ fuel := by
        have hle := hsplit.length_eq
        rw [List.length_append] at hle
        have hcpos : 0 < (steps.filter (stepReady completed)).length :=
          List.length_pos.mpr hcne
        rw [hremupd]
        omega
      obtain ⟨ihperm, ihdeps⟩ := ih _ hnd2 hsub2 hlen2
      constructor
      · rw [List.flatten_cons]
        refine (List.Perm.append_left _ ?_).trans hsplit.symm
        rw [hremupd] at ihperm
        exact ihperm
      · refine ⟨?_, ihdeps⟩
        intro s hs d hd
        have hr := (List.mem_filter.mp hs).2
        unfold stepReady at hr
        rw [Bool.and_eq_true] at hr
        have := List.all_eq_true.mp hr.2 d hd
        simpa using this

/-- `_build_dependency_graph` on a valid acyclic step list: the levels
are a permutation of the steps and dependency-closed. -/
theorem buildDependencyGraph_spec (steps : List WorkflowStep) (rank : String → Nat)
    (H1 : (stepIds steps).Nodup)
    (H2 : ∀ s ∈ steps, ∀ d ∈ s.depends_on, d ∈ stepIds steps)
    (H3 : ∀ s ∈ steps, ∀ d ∈ s.depends_on, rank d < rank s.id) :
    List.Perm (buildDependencyGraph steps).flatten steps ∧
      depsSat [] (buildDependencyGraph steps) := by
  have hfilter : steps.filter (fun s => !(List.contains [] s.id)) = steps :=
    List.filter_eq_self.mpr (fun a _ => rfl)
  have h := buildLoop_spec steps rank H1 H2 H3 (steps.length + 1) [] List.nodup_nil
    (by intro x hx; cases hx) (by rw [hfilter]; omega)
  rw [buildDependencyGraph]
  rwa [hfilter] at h

/-- Unfolds `depsSat` along the level list: a dependency of a step in
level `j` is either pre-completed or an id of some earlier level. -/
theorem depsSat_dep_in_earlier :
    ∀ (lvls : List (List WorkflowStep)) (c : List String) (j : Nat) (s : WorkflowStep),
      depsSat c lvls → s ∈ lvls.getD j [] → ∀ d ∈ s.depends_on,
      d ∈ c ∨ d ∈ stepIds (lvls.take j).flatten := by
  intro lvls
  induction lvls with
  | nil =>
    intro c j s _ hs
    simp [List.getD] at hs
  | cons lvl rest ih =>
    intro c j s hds hs d hd
    cases j with
    | zero =>
      have hs0 : s ∈ lvl := hs
      exact Or.inl (hds.1 s hs0 d hd)
    | succ j =>
      have hs1 : s ∈ rest.getD j [] := hs
      have := ih (setInsertMany c (lvl.map (·.id))) j s hds.2 hs1 d hd
      rcases this with h | h
      · rw [mem_setInsertMany] at h
        rcases h with h | h
        · exact Or.inl h
        · refine Or.inr ?_
          rw [List.take_succ_cons, List.flatten_cons]
          simp only [stepIds, List.map_append, List.mem_append]
          exact Or.inl h
      · refine Or.inr ?_
        rw [List.take_succ_cons, List.flatten_cons]
        simp only [stepIds, List.map_append, List.mem_append]
        exact Or.inr h

/-- A step of some indexed level is in the flattened level list. -/
theorem mem_getD_mem_flatten {lvls : List (List WorkflowStep)} {t : WorkflowStep}
    {k : Nat} (ht : t ∈ lvls.getD k []) : t ∈ lvls.flatten := by
  by_cases hk : k < lvls.length
  · rw [List.getD_eq_getElem lvls [] hk] at ht
    exact List.mem_flatten_of_mem (List.getElem_mem hk) ht
  · rw [List.getD_eq_default lvls [] (Nat.le_of_not_lt hk)] at ht
    cases ht

/-- In a duplicate-free level list, a step found among the first `j`
levels has its level index below `j`. -/
theorem level_index_lt_of_mem_take {lvls : List (List WorkflowStep)}
    (hnd : lvls.flatten.Nodup) {t : WorkflowStep} {j k : Nat}
    (ht : t ∈ lvls.getD k []) (htake : t ∈ (lvls.take j).flatten) : k < j := by
  by_contra hjk
  have hjk2 : j ≤ k := Nat.le_of_not_lt hjk
  have hk : k < lvls.length := by
    by_contra hk
    rw [List.getD_eq_default lvls [] (Nat.le_of_not_lt hk)] at ht
    cases ht
  rw [List.getD_eq_getElem lvls [] hk] at ht
  have hdrop : t ∈ (lvls.drop j).flatten := by
    have hkd : k - j < (lvls.drop j).length := by
      rw [List.length_drop]
      omega
    have hget : (lvls.drop j)[k - j] = lvls[k] := by
      rw [List.getElem_drop]
      congr 1
      omega
    refine List.mem_flatten_of_mem (l := (lvls.drop j)[k - j]) (List.getElem_mem hkd) ?_
    rw [hget]
    exact ht
  have hsplitnd : ((lvls.take j).flatten ++ (lvls.drop j).flatten).Nodup := by
    rw [← List.flatten_append, List.take_append_drop]
    exact hnd
  have hdisj := (List.nodup_append.mp hsplitnd).2.2
  exact hdisj htake hdrop

/-- C1: for every acyclic workflow (acyclicity witnessed by a rank
function on ids) whose `dependsOn` sets reference only step ids present
in the workflow, and whose step ids are unique (the data-model
invariant of spec section 3), `_build_dependency_graph` returns levels
in which every step appears in exactly one level — the flattened levels
are a permutation of the duplicate-free step list — and every step's
level index is strictly greater than the level index of every step it
depends on. -/
theorem dependency_graph_builder_topological_levels (steps : List WorkflowStep)
    (H1 : (steps.map (·.id)).Nodup)
    (H2 : ∀ s ∈ steps, ∀ d ∈ s.depends_on, d ∈ steps.map (·.id))
    (H3 : ∃ rank : String → Nat, ∀ s ∈ steps, ∀ d ∈ s.depends_on, rank d < rank s.id) :
    List.Perm (buildDependencyGraph steps).flatten steps ∧
      ∀ (j k : Nat) (s t : WorkflowStep),
        s ∈ (buildDependencyGraph steps).getD j [] →
        t ∈ (buildDependencyGraph steps).getD k [] →
        t.id ∈ s.depends_on → k < j := by
  obtain ⟨rank, H3⟩ := H3
  obtain ⟨hperm, hdeps⟩ := buildDependencyGraph_spec steps rank H1 H2 H3
  refine ⟨hperm, ?_⟩
  intro j k s t hs ht hdep
  have hidsnd : (stepIds (buildDependencyGraph steps).flatten).Nodup := by
    have hmap := hperm.map (·.id)
    exact H1.perm hmap.symm
  have hstepsnd : steps.Nodup := List.Nodup.of_map _ H1
  have hfnd : (buildDependencyGraph steps).flatten.Nodup := hstepsnd.perm hperm.symm
  have hin := depsSat_dep_in_earlier (buildDependencyGraph steps) [] j s hdeps hs t.id hdep
  rcases hin with h | h
  · cases h
  · rw [stepIds] at h
    obtain ⟨u, hu, huid⟩ := List.mem_map.mp h
    have hufl : u ∈ (buildDependencyGraph steps).flatten := by
      have hta := List.take_append_drop j (buildDependencyGraph steps)
      rw [← hta, List.flatten_append]
      exact List.mem_append_left _ hu
    have htfl : t ∈ (buildDependencyGraph steps).flatten := mem_getD_mem_flatten ht
    have hut : u = t := List.inj_on_of_nodup_map hidsnd hufl htfl huid
    exact level_index_lt_of_mem_take hfnd ht (hut ▸ hu)

/-- Concrete three-step workflow (a fan-out from one root) for the C1
witness. -/
def c1Steps : List WorkflowStep :=
  [{ id := "A", name := "A", agent_type := "task" },
   { id := "B", name := "B", agent_type := "task", depends_on := ["A"] },
   { id := "C", name := "C", agent_type := "task", depends_on := ["A"] }]

/-- Rank function witnessing acyclicity of `c1Steps`. -/
def c1Rank : String → Nat := fun i => if i = "A" then 0 else 1

/-- Witness for C1 at a concrete workflow: the hypotheses hold for
`c1Steps` and the topological-leveling conclusion follows. -/
theorem dependency_graph_builder_topological_levels_witness :
    ((c1Steps.map (·.id)).Nodup ∧
      (∀ s ∈ c1Steps, ∀ d ∈ s.depends_on, d ∈ c1Steps.map (·.id)) ∧
      (∀ s ∈ c1Steps, ∀ d ∈ s.depends_on, c1Rank d < c1Rank s.id)) ∧
    (List.Perm (buildDependencyGraph c1Steps).flatten c1Steps ∧
      ∀ (j k : Nat) (s t : WorkflowStep),
        s ∈ (buildDependencyGraph c1Steps).getD j [] →
        t ∈ (buildDependencyGraph c1Steps).getD k [] →
        t.id ∈ s.depends_on → k < j) :=
  ⟨⟨by decide, by decide, by decide⟩,
    dependency_graph_builder_topological_levels c1Steps (by decide) (by decide)
      ⟨c1Rank, by decide⟩⟩

/-! Engine-level invariants (claims C2, C3, C5, C6 and the C7/C9
counterexamples). -/

/-- Status-and-error invariant maintained on the `WorkflowResult`
inside the level loop: the status is still `running` or already
`failed`, and a `failed` status carries a non-empty error message. -/
def StatusErrInv (result : WorkflowResult) : Prop :=
  (result.status = .running ∨ result.status = .failed) ∧
    (result.status = .failed → ∃ m, result.error = some m ∧ m ≠ "")

theorem stop_msg_ne_empty (step_id e : String) :
    ("Step " ++ step_id ++ " failed: " ++ e) ≠ "" := by
  intro h
  have hlen := congrArg String.length h
  simp only [String.length_append] at hlen
  have h5 : ("Step ").length = 5 := rfl
  have h0 : ("" : String).length = 0 := rfl
  omega

theorem rollback_msg_ne_empty (step_id : String) :
    ("Workflow rolled back due to step " ++ step_id ++ " failure") ≠ "" := by
  intro h
  have hlen := congrArg String.length h
  simp only [String.length_append] at hlen
  have h5 : ("Workflow rolled back due to step ").length = 33 := by decide
  have h0 : ("" : String).length = 0 := rfl
  omega

/-- The merge loop only ever moves the status from `running` to
`failed`, and every failure it records carries a non-empty message. -/
theorem storeResults_statusErr (onFailure : String) :
    ∀ (batch : List (String × StepResult)) (ctx : WorkflowExecutionContext)
      (result : WorkflowResult), StatusErrInv result →
      StatusErrInv (storeResults onFailure batch ctx result).2 := by
  intro batch
  induction batch with
  | nil => intro ctx result h; exact h
  | cons pr rest ih =>
    obtain ⟨step_id, step_result⟩ := pr
    intro ctx result h
    rw [storeResults]
    by_cases hf : step_result.status = .failed
    · rw [if_pos hf]
      by_cases ho : onFailure = "stop"
      · rw [if_pos ho]
        exact ⟨Or.inr rfl, fun _ => ⟨_, rfl, stop_msg_ne_empty step_id _⟩⟩
      · rw [if_neg ho]
        by_cases hr : onFailure = "rollback"
        · rw [if_pos hr]
          exact ⟨Or.inr rfl, fun _ => ⟨_, rfl, rollback_msg_ne_empty step_id⟩⟩
        · rw [if_neg hr]
          exact ih _ _ ⟨h.1, h.2⟩
    · rw [if_neg hf]
      exact ih _ _ ⟨h.1, h.2⟩

/-- The level loop preserves the status-and-error invariant. -/
theorem runLevels_statusErr (agents : AgentMap) (wf : Workflow) :
    ∀ (levels : List (List WorkflowStep)) (ctx : WorkflowExecutionContext)
      (result : WorkflowResult), StatusErrInv result →
      StatusErrInv (runLevels agents wf levels ctx result).2 := by
  intro levels
  induction levels with
  | nil => intro ctx result h; exact h
  | cons lvl rest ih =>
    intro ctx result h
    rw [runLevels]
    split <;> split <;>
      first
        | exact storeResults_statusErr wf.config.on_failure _ _ _ h
        | exact ih _ _ (storeResults_statusErr wf.config.on_failure _ _ _ h)

/-- C2: for every workflow, agent behaviour and initial input,
`WorkflowEngine.execute` returns a `WorkflowResult` (in the model it is
a total function: every raise in the source is converted to a failed
result at an inner `try/except` boundary, so nothing escapes the
engine) whose status is terminal — `completed` or `failed` — and
whenever the status is `failed` the error field holds a non-empty
string. -/
theorem execute_terminal_status_and_error (agents : AgentMap) (wf : Workflow)
    (input : List (String × Value)) :
    ((execute agents wf input).status = .completed ∨
      (execute agents wf input).status = .failed) ∧
    ((execute agents wf input).status = .failed →
      ∃ m, (execute agents wf input).error = some m ∧ m ≠ "") := by
  have hinv : StatusErrInv { workflow_id := wf.id, status := .running } :=
    ⟨Or.inl rfl, by intro hc; simp at hc⟩
  have h := runLevels_statusErr agents wf (buildDependencyGraph wf.steps)
    { workflow_id := wf.id, «variables» := input }
    { workflow_id := wf.id, status := .running } hinv
  rw [execute]
  dsimp only
  split
  · split
    · exact ⟨Or.inl rfl, by intro hc; simp at hc⟩
    · exact ⟨Or.inl rfl, by intro hc; simp at hc⟩
  · rename_i hb
    have hf : (runLevels agents wf (buildDependencyGraph wf.steps)
        { workflow_id := wf.id, «variables» := input }
        { workflow_id := wf.id, status := .running }).2.status = .failed := by
      simpa using hb
    exact ⟨Or.inr hf, h.2⟩

/-- Two-step chain A → B with `on_failure = "stop"` for the C3
scenario. -/
def c3Workflow : Workflow :=
  { id := "wf3", config := { name := "c3", on_failure := "stop" },
    steps := [{ id := "A", name := "A", agent_type := "task" },
              { id := "B", name := "B", agent_type := "task", depends_on := ["A"] }] }

/-- Agent layer for C3: step A fails cleanly; step B's behaviour is an
arbitrary parameter `b`. -/
def c3Agents (b : AgentOutcome) : AgentMap := fun id _ =>
  if id = "A" then .ok { success := false, error := some "A exploded" } 5 else b

/-- C3: in the chain A → B with `on_failure = "stop"` and A failing,
the run fails with an error naming A's error, no `StepResult` for B
exists, and — since the result is the same for every possible outcome
`b` of B's agent — B's agent is never invoked. -/
theorem stop_policy_failed_step_halts_dependents (b : AgentOutcome) :
    (execute (c3Agents b) c3Workflow []).status = .failed ∧
    (execute (c3Agents b) c3Workflow []).error = some "Step A failed: A exploded" ∧
    dictGet "B" (execute (c3Agents b) c3Workflow []).step_results = none ∧
    dictGet "A" (execute (c3Agents b) c3Workflow []).step_results =
      some { step_id := "A", status := .failed, error := some "A exploded",
             execution_time := 5 } :=
  ⟨rfl, rfl, rfl, rfl⟩

/-- Single-step workflow whose whole-workflow timeout is 0 while its
agent takes 100 time units (within the per-step timeout). -/
def c5Workflow : Workflow :=
  { id := "wf5", config := { name := "c5", timeout := 0 },
    steps := [{ id := "S", name := "S", agent_type := "task", timeout := 300 }] }

/-- Agent for C5: succeeds after 100 time units. -/
def c5Agents : AgentMap := fun _ _ =>
  .ok { success := true, data := some (.dict [("n", .int 1)]) } 100

/-- C5 (code-bug evidence): a run lasting 100 time units against a
configured whole-workflow timeout of 0 still returns `completed` with
no error — no code path in `execute` ever applies
`workflow.config.timeout`; the `except asyncio.TimeoutError` arm that
would produce the timeout-specific message is unreachable. -/
theorem workflow_timeout_never_enforced :
    (execute c5Agents c5Workflow []).status = .completed ∧
    (execute c5Agents c5Workflow []).error = none ∧
    (execute c5Agents c5Workflow []).final_output = some (.dict [("n", .int 1)]) :=
  ⟨rfl, rfl, rfl⟩

/-- Fan-out workflow A → ⟨B, C⟩ with parallel execution for C6. -/
def c6Workflow : Workflow :=
  { id := "wf6",
    config := { name := "c6", parallel_execution := true, on_failure := "stop" },
    steps := [{ id := "A", name := "A", agent_type := "task" },
              { id := "B", name := "B", agent_type := "task", depends_on := ["A"] },
              { id := "C", name := "C", agent_type := "task", depends_on := ["A"] }] }

/-- Agent layer for C6: A and B succeed, C's coroutine raises. -/
def c6Agents : AgentMap := fun id _ =>
  if id = "A" then .ok { success := true, data := some (.dict [("a", .int 1)]) } 1
  else if id = "B" then .ok { success := true, data := some (.dict [("b", .int 2)]) } 2
  else .raises "C blew up" 3

/-- C6: in the parallel level [B, C] with C's execution raising, the
exception is converted into a failed `StepResult` for C carrying the
exception text, while B's `StepResult` is still `completed` and present
in the final `step_results` — the fault does not terminate the batch or
corrupt the sibling result. -/
theorem parallel_batch_isolates_sibling_fault :
    dictGet "B" (execute c6Agents c6Workflow []).step_results =
      some { step_id := "B", status := .completed,
             output := some (.dict [("b", .int 2)]), execution_time := 2 } ∧
    dictGet "C" (execute c6Agents c6Workflow []).step_results =
      some { step_id := "C", status := .failed, error := some "C blew up",
             execution_time := 3 } ∧
    (execute c6Agents c6Workflow []).status = .failed :=
  ⟨rfl, rfl, rfl⟩

/-- Workflow with step order [A, C, B] (level order puts C before B)
where C fails, for the C7 counterexample. -/
def c7Workflow : Workflow :=
  { id := "wf7", config := { name := "c7", on_failure := "stop" },
    steps := [{ id := "A", name := "A", agent_type := "task" },
              { id := "C", name := "C", agent_type := "task", depends_on := ["A"] },
              { id := "B", name := "B", agent_type := "task", depends_on := ["A"] }] }

/-- Agent layer for C7: A and B succeed, C fails cleanly. -/
def c7Agents : AgentMap := fun id _ =>
  if id = "A" then .ok { success := true, data := some (.dict [("a", .int 1)]) } 1
  else if id = "C" then .ok { success := false, error := some "C bad" } 2
  else .ok { success := true, data := some (.dict [("b", .int 2)]) } 3

/-- C7 counterexample: B sits in the same executed level as the failing
step C (the first conjunct shows the level [C, B]; the sequential batch
executes every step of its level), yet after the merge loop breaks on
C's failure the final `step_results` has no entry for B — so the engine
does not merge every executed step's result before applying the failure
policy. -/
theorem merge_drops_results_after_first_failure :
    (buildDependencyGraph c7Workflow.steps).map (fun lvl => lvl.map (·.id))
      = [["A"], ["C", "B"]] ∧
    (execute c7Agents c7Workflow []).status = .failed ∧
    dictGet "C" (execute c7Agents c7Workflow []).step_results =
      some { step_id := "C", status := .failed, error := some "C bad",
             execution_time := 2 } ∧
    dictGet "B" (execute c7Agents c7Workflow []).step_results = none :=
  ⟨rfl, rfl, rfl, rfl⟩

/-- Single-step workflow whose agent succeeds with the falsy output
`{}`, for the C9 counterexample. -/
def c9Workflow : Workflow :=
  { id := "wf9", config := { name := "c9" },
    steps := [{ id := "S", name := "S", agent_type := "task" }] }

/-- Agent for C9: succeeds with data `{}`. -/
def c9Agents : AgentMap := fun _ _ =>
  .ok { success := true, data := some (.dict []) } 1

/-- C9 counterexample: the run completes and the last (only) step's
recorded output is `some {}` — but `final_output` is `none`, because
`execute` looks the last step id up in `step_outputs`, which records
only truthy outputs.  `none ≠ some {}`, so `final_output` does not
equal the last step's output. -/
theorem final_output_none_for_falsy_last_output :
    (execute c9Agents c9Workflow []).status = .completed ∧
    dictGet "S" (execute c9Agents c9Workflow []).step_results =
      some { step_id := "S", status := .completed, output := some (.dict []),
             execution_time := 1 } ∧
    (execute c9Agents c9Workflow []).final_output = none ∧
    (some (Value.dict []) : Option Value) ≠ none :=
  ⟨rfl, rfl, rfl, fun h => Option.noConfusion h⟩

/-! Claim C4: template resolution. -/

/-- Context in which step `stepA` has completed with recorded output
`{"x": 5}`. -/
def c4Ctx : WorkflowExecutionContext :=
  { workflow_id := "w4", step_outputs := [("stepA", .dict [("x", .int 5)])] }

/-- C4 counterexample: with `stepA`'s recorded output `{"x": 5}`,
resolving the template input with path `stepA.output.x` yields `null`,
not `5` — the walk starts at the recorded output itself, so the segment
`output` is looked up inside `{"x": 5}` and misses. -/
theorem template_output_path_yields_null :
    resolveInputs [("k", .str "\x7b\x7bstepA.output.x\x7d\x7d")] c4Ctx
      = [("k", Value.null)] ∧ Value.null ≠ Value.int 5 :=
  ⟨rfl, fun h => Value.noConfusion h⟩

/-- Context in which step `stepA`'s recorded output wraps the payload
in an explicit `output` key. -/
def c4CtxB : WorkflowExecutionContext :=
  { workflow_id := "w4",
    step_outputs := [("stepA", .dict [("output", .dict [("x", .int 5)])])] }

/-- C4 amended: resolving the template path `stepA.output.x` yields `5`
when the recorded output is `{"output": {"x": 5}}` — the dot-path
segments after the step id are walked inside the recorded output
itself; and resolving any path whose first segment is not a key of
`step_outputs` is a whole-path lookup in `variables`, yielding `null`
when the key is absent and never raising (the resolver is a total
function). -/
theorem template_resolution_amended :
    (resolveInputs [("k", .str "\x7b\x7bstepA.output.x\x7d\x7d")] c4CtxB
        = [("k", Value.int 5)]) ∧
    ∀ (path : String) (ctx : WorkflowExecutionContext) (p0 : String)
      (rest : List String),
      splitOnChar (Char.ofNat 46) path = p0 :: rest →
      dictGet p0 ctx.step_outputs = none →
      getContextValue path ctx =
        (match dictGet path ctx.variables with
          | some v => v
          | none => Value.null) := by
  constructor
  · rfl
  · intro path ctx p0 rest hsplit hnone
    unfold getContextValue
    rw [hsplit]
    dsimp only
    rw [hnone]

/-- Witness for the amended C4 at a concrete not-yet-completed step
path: the hypotheses hold concretely and the fallback equation follows
from the amended theorem. -/
theorem template_resolution_amended_witness :
    splitOnChar (Char.ofNat 46) "stepB.y" = "stepB" :: ["y"] ∧
    dictGet "stepB" c4Ctx.step_outputs = none ∧
    getContextValue "stepB.y" c4Ctx =
      (match dictGet "stepB.y" c4Ctx.variables with
        | some v => v
        | none => Value.null) :=
  ⟨rfl, rfl, template_resolution_amended.2 "stepB.y" c4Ctx "stepB" ["y"] rfl rfl⟩

/-! Claim C8: condition-false short circuit. -/

/-- C8: when a step's condition evaluates to false, `_execute_step`
returns a completed `StepResult` whose output carries `skipped: true`
(plus the reason) and zero execution time; no agent is instantiated or
invoked — the result is identical for every possible agent map. -/
theorem condition_false_skips_agent (agents : AgentMap) (step : WorkflowStep)
    (wf : Workflow) (ctx : WorkflowExecutionContext) (c : StepCondition)
    (hc : step.condition = some c)
    (hfalse : evaluateCondition c { ctx with current_step := some step.id }
      = .ok false) :
    executeStep agents step wf ctx =
      ({ step_id := step.id, status := .completed,
         output := some (.dict [("skipped", .bool true),
           ("reason", .str "condition_not_met")]),
         execution_time := 0 }, { ctx with current_step := some step.id }) := by
  unfold executeStep
  rw [hc]
  dsimp only
  rw [hfalse]

/-- Concrete condition for the C8 witness: compares the unresolved
(absent, hence `null`) context field `flag` with `1`. -/
def c8Cond : StepCondition :=
  { type := "equals", field := "flag", value := .int 1, operator := "equals" }

/-- Concrete conditioned step for the C8 witness. -/
def c8Step : WorkflowStep :=
  { id := "S", name := "S", agent_type := "task", condition := some c8Cond }

/-- Workflow holding the C8 witness step. -/
def c8Workflow : Workflow :=
  { id := "w8", config := { name := "c8" }, steps := [c8Step] }

/-- Empty context for the C8 witness. -/
def c8Ctx : WorkflowExecutionContext := { workflow_id := "w8" }

/-- Agent map that would fail loudly if consulted, for the C8
witness. -/
def c8Agents : AgentMap := fun _ _ => .raises "agent must not run" 0

/-- Witness for C8: the concrete condition evaluates to false and the
step executor returns the skipped result without consulting the
agent. -/
theorem condition_false_skips_agent_witness :
    evaluateCondition c8Cond { c8Ctx with current_step := some "S" } = .ok false ∧
    executeStep c8Agents c8Step c8Workflow c8Ctx =
      ({ step_id := "S", status := .completed,
         output := some (.dict [("skipped", .bool true),
           ("reason", .str "condition_not_met")]),
         execution_time := 0 }, { c8Ctx with current_step := some "S" }) := by
  have hbeq : Value.beq Value.null (Value.int 1) = false := by simp [Value.beq]
  have hev : evaluateCondition c8Cond { c8Ctx with current_step := some "S" }
      = .ok (Value.beq Value.null (Value.int 1)) := rfl
  rw [hbeq] at hev
  exact ⟨hev, condition_false_skips_agent c8Agents c8Step c8Workflow c8Ctx c8Cond rfl hev⟩

/-! Claim C10: falsy outputs are not recorded in `step_outputs`. -/

/-- C10: merging a `StepResult` whose output is falsy appends the step
id to `completed_steps` but records nothing in `step_outputs`; any
later template path whose first segment is that id (with that id not
already an output key) therefore falls through to a whole-path lookup
in `variables` instead of the step's output. -/
theorem falsy_output_merge_not_recorded (onFailure : String) (id : String)
    (sr : StepResult) (ctx : WorkflowExecutionContext) (result : WorkflowResult)
    (hfal : optTruthy sr.output = false) :
    (storeResults onFailure [(id, sr)] ctx result).1.completed_steps
        = ctx.completed_steps ++ [id] ∧
    (storeResults onFailure [(id, sr)] ctx result).1.step_outputs
        = ctx.step_outputs ∧
    (dictGet id ctx.step_outputs = none →
      ∀ (path : String) (rest : List String),
        splitOnChar (Char.ofNat 46) path = id :: rest →
        getContextValue path (storeResults onFailure [(id, sr)] ctx result).1 =
          (match dictGet path ctx.variables with
            | some v => v
            | none => Value.null)) := by
  have hctx : (storeResults onFailure [(id, sr)] ctx result).1 =
      { ctx with completed_steps := ctx.completed_steps ++ [id] } := by
    rw [storeResults, hfal]
    rw [if_neg Bool.false_ne_true]
    split
    · split
      · rfl
      · split
        · rfl
        · rfl
    · rfl
  refine ⟨by rw [hctx], by rw [hctx], ?_⟩
  intro hnone path rest hsplit
  rw [hctx]
  unfold getContextValue
  rw [hsplit]
  dsimp only
  rw [hnone]

/-- Concrete falsy-output step result (`{}` is falsy) for the C10
witness. -/
def c10Result : StepResult :=
  { step_id := "s1", status := .completed, output := some (.dict []) }

/-- Empty context for the C10 witness. -/
def c10Ctx : WorkflowExecutionContext := { workflow_id := "w10" }

/-- Running result for the C10 witness. -/
def c10Res : WorkflowResult := { workflow_id := "w10", status := .running }

/-- Witness for C10 at a concrete merge: the hypotheses hold and the
later template path `s1.x` falls through to the variables lookup. -/
theorem falsy_output_merge_not_recorded_witness :
    optTruthy c10Result.output = false ∧
    dictGet "s1" c10Ctx.step_outputs = none ∧
    splitOnChar (Char.ofNat 46) "s1.x" = "s1" :: ["x"] ∧
    getContextValue "s1.x" (storeResults "stop" [("s1", c10Result)] c10Ctx c10Res).1 =
      (match dictGet "s1.x" c10Ctx.variables with
        | some v => v
        | none => Value.null) :=
  ⟨rfl, rfl, rfl,
    (falsy_output_merge_not_recorded "stop" "s1" c10Result c10Ctx c10Res rfl).2.2
      rfl "s1.x" ["x"] rfl⟩

/-! Claim C7 (amended): what the merge loop actually merges. -/

/-- Prefix of a batch up to and including its first failed entry. -/
def takeThroughFailure : List (String × StepResult) → List (String × StepResult)
  | [] => []
  | (id, sr) :: rest =>
    if sr.status = .failed then [(id, sr)]
    else (id, sr) :: takeThroughFailure rest

/-- The entries the merge loop actually processes: the whole batch for
`continue`-like policies, only the prefix through the first failure for
`stop`/`rollback` (whose branches break out of the merge). -/
def mergedPrefix (onFailure : String) (batch : List (String × StepResult)) :
    List (String × StepResult) :=
  if onFailure = "stop" ∨ onFailure = "rollback" then takeThroughFailure batch
  else batch

/-- Keys not in the batch keep their `step_results` entry across the
merge loop. -/
theorem storeResults_get_preserved (onFailure : String) :
    ∀ (batch : List (String × StepResult)) (ctx : WorkflowExecutionContext)
      (result : WorkflowResult) (k : String), (∀ pr ∈ batch, pr.1 ≠ k) →
      dictGet k (storeResults onFailure batch ctx result).2.step_results
        = dictGet k result.step_results := by
  intro batch
  induction batch with
  | nil => intro ctx result k _; rfl
  | cons pr rest ih =>
    obtain ⟨id, sr⟩ := pr
    intro ctx result k hk
    have hid : id ≠ k := hk (id, sr) (List.mem_cons_self _ _)
    have hrest : ∀ q ∈ rest, q.1 ≠ k := fun q hq => hk q (List.mem_cons_of_mem _ hq)
    have hins : dictGet k (dictInsert id sr result.step_results)
        = dictGet k result.step_results := dictGet_insert_of_ne hid sr _
    rw [storeResults]
    split
    · split
      · exact hins
      · split
        · exact hins
        · rw [ih _ _ k hrest]
          exact hins
    · rw [ih _ _ k hrest]
      exact hins

/-- Membership in `completed_steps` persists across the merge loop. -/
theorem storeResults_completed_mono (onFailure : String) :
    ∀ (batch : List (String × StepResult)) (ctx : WorkflowExecutionContext)
      (result : WorkflowResult) (k : String), k ∈ ctx.completed_steps →
      k ∈ (storeResults onFailure batch ctx result).1.completed_steps := by
  intro batch
  induction batch with
  | nil => intro ctx result k hk; exact hk
  | cons pr rest ih =>
    obtain ⟨id, sr⟩ := pr
    intro ctx result k hk
    have hk1 : k ∈ ctx.completed_steps ++ [id] := List.mem_append_left _ hk
    rw [storeResults]
    split
    · split
      · split <;> exact hk1
      · split
        · split <;> exact hk1
        · exact ih _ _ k (by split <;> exact hk1)
    · exact ih _ _ k (by split <;> exact hk1)

/-- C7 amended: the engine does not merge the whole level before
inspecting it for failures — it merges and inspects one entry at a
time, in batch order.  Every entry of `mergedPrefix` — the whole batch
with `on_failure = "continue"` (or any policy other than
`stop`/`rollback`), the prefix up to and including the first failed
entry with `stop`/`rollback` — ends up in `WorkflowResult.stepResults`
and in `context.completedSteps`; the results of steps after a
`stop`/`rollback` break are discarded (see the counterexample). -/
theorem storeResults_merges_through_first_failure (onFailure : String) :
    ∀ (batch : List (String × StepResult)) (ctx : WorkflowExecutionContext)
      (result : WorkflowResult), (batch.map Prod.fst).Nodup →
      ∀ pr ∈ mergedPrefix onFailure batch,
        dictGet pr.1 (storeResults onFailure batch ctx result).2.step_results
            = some pr.2 ∧
        pr.1 ∈ (storeResults onFailure batch ctx result).1.completed_steps := by
  intro batch
  induction batch with
  | nil =>
    intro ctx result _ pr hpr
    rw [mergedPrefix] at hpr
    split at hpr <;> simp [takeThroughFailure] at hpr
  | cons hd rest ih =>
    obtain ⟨id, sr⟩ := hd
    intro ctx result hnd pr hpr
    have hndmap := hnd
    rw [List.map_cons, List.nodup_cons] at hndmap
    have hni : id ∉ rest.map Prod.fst := hndmap.1
    have hidrest : ∀ q ∈ rest, q.1 ≠ id := by
      intro q hq he
      exact hni (he ▸ List.mem_map_of_mem Prod.fst hq)
    have hndrest : (rest.map Prod.fst).Nodup := hndmap.2
    -- the state right after merging the head entry
    have hheadget : ∀ (r2 : WorkflowResult),
        r2.step_results = dictInsert id sr result.step_results →
        dictGet id r2.step_results = some sr := by
      intro r2 h2
      rw [h2]
      exact dictGet_insert_self id sr _
    by_cases hf : sr.status = .failed
    · by_cases hsr : onFailure = "stop" ∨ onFailure = "rollback"
      · -- the loop merges the head and breaks
        have hpr1 : pr = (id, sr) := by
          rw [mergedPrefix, if_pos hsr, takeThroughFailure, if_pos hf] at hpr
          simpa using hpr
        subst hpr1
        rw [storeResults]
        rw [if_pos hf]
        rcases hsr with hs | hs
        · rw [if_pos hs]
          constructor
          · exact dictGet_insert_self id sr _
          · split <;> exact List.mem_append_right _ (List.mem_singleton.mpr rfl)
        · by_cases hstop : onFailure = "stop"
          · rw [if_pos hstop]
            constructor
            · exact dictGet_insert_self id sr _
            · split <;> exact List.mem_append_right _ (List.mem_singleton.mpr rfl)
          · rw [if_neg hstop, if_pos hs]
            constructor
            · exact dictGet_insert_self id sr _
            · split <;> exact List.mem_append_right _ (List.mem_singleton.mpr rfl)
      · -- continue-like policy: merge the head and keep going
        have hprm : pr = (id, sr) ∨ pr ∈ mergedPrefix onFailure rest := by
          rw [mergedPrefix, if_neg hsr] at hpr ⊢
          exact List.mem_cons.mp hpr
        have hnstop : ¬onFailure = "stop" := fun h => hsr (Or.inl h)
        have hnroll : ¬onFailure = "rollback" := fun h => hsr (Or.inr h)
        rw [storeResults, if_pos hf, if_neg hnstop, if_neg hnroll]
        rcases hprm with rfl | hprm
        · constructor
          · rw [storeResults_get_preserved onFailure rest _ _ id hidrest]
            exact dictGet_insert_self id sr _
          · exact storeResults_completed_mono onFailure rest _ _ id
              (by split <;> exact List.mem_append_right _ (List.mem_singleton.mpr rfl))
        · exact ih _ _ hndrest pr hprm
    · -- head succeeded: merge it and keep going
      have hprm : pr = (id, sr) ∨ pr ∈ mergedPrefix onFailure rest := by
        by_cases hsr : onFailure = "stop" ∨ onFailure = "rollback"
        · rw [mergedPrefix, if_pos hsr, takeThroughFailure, if_neg hf] at hpr
          rw [mergedPrefix, if_pos hsr]
          exact List.mem_cons.mp hpr
        · rw [mergedPrefix, if_neg hsr] at hpr
          rw [mergedPrefix, if_neg hsr]
          exact List.mem_cons.mp hpr
      rw [storeResults, if_neg hf]
      rcases hprm with rfl | hprm
      · constructor
        · rw [storeResults_get_preserved onFailure rest _ _ id hidrest]
          exact dictGet_insert_self id sr _
        · exact storeResults_completed_mono onFailure rest _ _ id
            (by split <;> exact List.mem_append_right _ (List.mem_singleton.mpr rfl))
      · exact ih _ _ hndrest pr hprm

/-- Successful entry before the failure, for the C7 witness batch. -/
def c7wOk : StepResult :=
  { step_id := "x", status := .completed, output := some (.int 1) }

/-- The first failed entry of the C7 witness batch. -/
def c7wFail : StepResult :=
  { step_id := "y", status := .failed, error := some "y bad" }

/-- Entry after the failure (discarded under `stop`), for the C7
witness batch. -/
def c7wOk2 : StepResult :=
  { step_id := "z", status := .completed, output := some (.int 2) }

/-- Concrete three-entry batch for the C7 witness. -/
def c7wBatch : List (String × StepResult) :=
  [("x", c7wOk), ("y", c7wFail), ("z", c7wOk2)]

/-- Empty context for the C7 witness. -/
def c7wCtx : WorkflowExecutionContext := { workflow_id := "w7w" }

/-- Running result for the C7 witness. -/
def c7wRes : WorkflowResult := { workflow_id := "w7w", status := .running }

/-- Witness for the amended C7: with policy `stop`, the first failed
entry of the concrete batch is in the merged prefix and ends up in
`step_results` and `completed_steps`. -/
theorem storeResults_merges_through_first_failure_witness :
    (c7wBatch.map Prod.fst).Nodup ∧
    ("y", c7wFail) ∈ mergedPrefix "stop" c7wBatch ∧
    (dictGet "y" (storeResults "stop" c7wBatch c7wCtx c7wRes).2.step_results
        = some c7wFail ∧
      "y" ∈ (storeResults "stop" c7wBatch c7wCtx c7wRes).1.completed_steps) := by
  have hnd : (c7wBatch.map Prod.fst).Nodup := by decide
  have hmem : ("y", c7wFail) ∈ mergedPrefix "stop" c7wBatch :=
    List.mem_cons_of_mem _ (List.mem_cons_self _ _)
  exact ⟨hnd, hmem,
    storeResults_merges_through_first_failure "stop" c7wBatch c7wCtx c7wRes hnd
      ("y", c7wFail) hmem⟩

/-! Claim C9 (amended): what `final_output` actually is. -/

/-- What `step_outputs` records for a step as a function of its merged
`StepResult`: the output when truthy, nothing otherwise. -/
def outputsView : Option StepResult → Option Value
  | none => none
  | some sr => if optTruthy sr.output then sr.output else none

/-- Coupling invariant between `context.step_outputs` and
`WorkflowResult.step_results` maintained by the merge loop. -/
def OutMatch (ctx : WorkflowExecutionContext) (result : WorkflowResult) : Prop :=
  ∀ id, dictGet id ctx.step_outputs = outputsView (dictGet id result.step_results)

/-- Entries of a dict after insertion come from the inserted pair or
the original dict. -/
theorem dictInsert_key_mem {α : Type} (k : String) (v : α) :
    ∀ (l : List (String × α)) (pr : String × α), pr ∈ dictInsert k v l →
      pr = (k, v) ∨ pr ∈ l := by
  intro l
  induction l with
  | nil =>
    intro pr hpr
    rw [dictInsert] at hpr
    exact Or.inl (List.mem_singleton.mp hpr)
  | cons hd rest ih =>
    obtain ⟨k1, v1⟩ := hd
    intro pr hpr
    rw [dictInsert] at hpr
    by_cases h : k1 = k
    · rw [if_pos h] at hpr
      rcases List.mem_cons.mp hpr with h1 | h1
      · exact Or.inl h1
      · exact Or.inr (List.mem_cons_of_mem _ h1)
    · rw [if_neg h] at hpr
      rcases List.mem_cons.mp hpr with h1 | h1
      · exact Or.inr (by rw [h1]; exact List.mem_cons_self _ _)
      · rcases ih pr h1 with h2 | h2
        · exact Or.inl h2
        · exact Or.inr (List.mem_cons_of_mem _ h2)

theorem dictInsert_keys_mem {α : Type} (k x : String) (v : α) :
    ∀ (l : List (String × α)),
      (x ∈ (dictInsert k v l).map Prod.fst ↔ x = k ∨ x ∈ l.map Prod.fst) := by
  intro l
  induction l with
  | nil => simp [dictInsert]
  | cons hd rest ih =>
    obtain ⟨k1, v1⟩ := hd
    rw [dictInsert]
    by_cases h : k1 = k
    · rw [if_pos h]
      subst h
      simp only [List.map_cons, List.mem_cons]
      tauto
    · rw [if_neg h]
      simp only [List.map_cons, List.mem_cons, ih]
      tauto

theorem dictInsert_keys_nodup {α : Type} (k : String) (v : α) :
    ∀ (l : List (String × α)), (l.map Prod.fst).Nodup →
      ((dictInsert k v l).map Prod.fst).Nodup := by
  intro l
  induction l with
  | nil => intro _; simp [dictInsert]
  | cons hd rest ih =>
    obtain ⟨k1, v1⟩ := hd
    intro h
    rw [List.map_cons, List.nodup_cons] at h
    rw [dictInsert]
    by_cases hk : k1 = k
    · rw [if_pos hk]
      subst hk
      rw [List.map_cons, List.nodup_cons]
      exact ⟨h.1, h.2⟩
    · rw [if_neg hk]
      rw [List.map_cons, List.nodup_cons]
      refine ⟨?_, ih h.2⟩
      intro hmem
      rw [dictInsert_keys_mem] at hmem
      rcases hmem with h1 | h1
      · exact hk h1
      · exact h.1 h1

/-- The step executor only writes `current_step` into the context. -/
theorem executeStep_ctx (agents : AgentMap) (step : WorkflowStep) (wf : Workflow)
    (ctx : WorkflowExecutionContext) :
    (executeStep agents step wf ctx).2 = { ctx with current_step := some step.id } := by
  unfold executeStep
  dsimp only
  split
  · rfl
  · split <;> rfl

/-- Characterisation of the sequential batch fold: every produced entry
is keyed by a step id of the batch, keys stay duplicate-free, and the
threaded context changes only `current_step`. -/
theorem seqFold_spec (agents : AgentMap) (wf : Workflow) :
    ∀ (steps : List WorkflowStep) (ctx : WorkflowExecutionContext)
      (acc : List (String × StepResult)),
      (∀ pr ∈ (steps.foldl
          (fun acc step =>
            let sr := executeStep agents step wf acc.2
            (dictInsert step.id sr.1 acc.1, sr.2))
          (acc, ctx)).1,
        pr ∈ acc ∨ pr.1 ∈ steps.map (·.id)) ∧
      ((acc.map Prod.fst).Nodup →
        (((steps.foldl
          (fun acc step =>
            let sr := executeStep agents step wf acc.2
            (dictInsert step.id sr.1 acc.1, sr.2))
          (acc, ctx)).1.map Prod.fst)).Nodup) ∧
      (steps.foldl
          (fun acc step =>
            let sr := executeStep agents step wf acc.2
            (dictInsert step.id sr.1 acc.1, sr.2))
          (acc, ctx)).2.step_outputs = ctx.step_outputs := by
  intro steps
  induction steps with
  | nil =>
    intro ctx acc
    exact ⟨fun pr hpr => Or.inl hpr, fun h => h, rfl⟩
  | cons s rest ih =>
    intro ctx acc
    rw [List.foldl_cons]
    have hctx2 : (executeStep agents s wf ctx).2
        = { ctx with current_step := some s.id } := executeStep_ctx agents s wf ctx
    obtain ⟨ihmem, ihnd, ihout⟩ :=
      ih (executeStep agents s wf ctx).2
        (dictInsert s.id (executeStep agents s wf ctx).1 acc)
    refine ⟨?_, ?_, ?_⟩
    · intro pr hpr
      rcases ihmem pr hpr with h1 | h1
      · rcases dictInsert_key_mem s.id (executeStep agents s wf ctx).1 acc pr h1
          with h4 | h4
        · refine Or.inr ?_
          rw [List.map_cons, List.mem_cons]
          exact Or.inl (by rw [h4])
        · exact Or.inl h4
      · refine Or.inr ?_
        rw [List.map_cons, List.mem_cons]
        exact Or.inr h1
    · intro hnd
      exact ihnd (dictInsert_keys_nodup s.id _ acc hnd)
    · rw [ihout, hctx2]

/-- Characterisation of the parallel batch fold: every produced entry
is keyed by a step id of the batch and keys stay duplicate-free. -/
theorem parFold_spec (agents : AgentMap) (wf : Workflow)
    (ctx : WorkflowExecutionContext) :
    ∀ (steps : List WorkflowStep) (acc : List (String × StepResult)),
      (∀ pr ∈ steps.foldl
          (fun acc step => dictInsert step.id (executeStep agents step wf ctx).1 acc)
          acc,
        pr ∈ acc ∨ pr.1 ∈ steps.map (·.id)) ∧
      ((acc.map Prod.fst).Nodup →
        ((steps.foldl
          (fun acc step => dictInsert step.id (executeStep agents step wf ctx).1 acc)
          acc).map Prod.fst).Nodup) := by
  intro steps
  induction steps with
  | nil =>
    intro acc
    exact ⟨fun pr hpr => Or.inl hpr, fun h => h⟩
  | cons s rest ih =>
    intro acc
    rw [List.foldl_cons]
    obtain ⟨ihmem, ihnd⟩ := ih (dictInsert s.id (executeStep agents s wf ctx).1 acc)
    refine ⟨?_, ?_⟩
    · intro pr hpr
      rcases ihmem pr hpr with h1 | h1
      · rcases dictInsert_key_mem s.id (executeStep agents s wf ctx).1 acc pr h1
          with h4 | h4
        · refine Or.inr ?_
          rw [List.map_cons, List.mem_cons]
          exact Or.inl (by rw [h4])
        · exact Or.inl h4
      · refine Or.inr ?_
        rw [List.map_cons, List.mem_cons]
        exact Or.inr h1
    · intro hnd
      exact ihnd (dictInsert_keys_nodup s.id _ acc hnd)

/-- The merge loop keeps `step_outputs` coupled to `step_results`:
fresh, key-distinct batch entries update both maps consistently. -/
theorem storeResults_outMatch (onFailure : String) :
    ∀ (batch : List (String × StepResult)) (ctx : WorkflowExecutionContext)
      (result : WorkflowResult), (batch.map Prod.fst).Nodup →
      (∀ pr ∈ batch, dictGet pr.1 result.step_results = none) →
      OutMatch ctx result →
      OutMatch (storeResults onFailure batch ctx result).1
        (storeResults onFailure batch ctx result).2 := by
  intro batch
  induction batch with
  | nil => intro ctx result _ _ h; exact h
  | cons hd rest ih =>
    obtain ⟨id, sr⟩ := hd
    intro ctx result hnd hfresh hm
    have hfid : dictGet id result.step_results = none :=
      hfresh (id, sr) (List.mem_cons_self _ _)
    rw [List.map_cons, List.nodup_cons] at hnd
    have hni : id ∉ rest.map Prod.fst := hnd.1
    have hfresh2 : ∀ pr ∈ rest,
        dictGet pr.1 (dictInsert id sr result.step_results) = none := by
      intro pr hpr
      have hne : id ≠ pr.1 := by
        intro he
        exact hni (he ▸ List.mem_map_of_mem Prod.fst hpr)
      rw [dictGet_insert_of_ne hne]
      exact hfresh pr (List.mem_cons_of_mem _ hpr)
    have hm1 : OutMatch
        (if optTruthy sr.output = true then
          { ctx with
            completed_steps := ctx.completed_steps ++ [id]
            step_outputs := dictInsert id (sr.output.getD .null) ctx.step_outputs }
         else { ctx with completed_steps := ctx.completed_steps ++ [id] })
        { result with step_results := dictInsert id sr result.step_results } := by
      intro k
      by_cases ht : optTruthy sr.output = true
      · rw [if_pos ht]
        by_cases hk : id = k
        · subst hk
          show dictGet id (dictInsert id (sr.output.getD .null) ctx.step_outputs)
              = outputsView (dictGet id (dictInsert id sr result.step_results))
          rw [dictGet_insert_self, dictGet_insert_self]
          obtain ⟨v, hv, htv⟩ := optTruthy_iff.mp ht
          simp [outputsView, ht, hv, optTruthy, htv]
        · show dictGet k (dictInsert id (sr.output.getD .null) ctx.step_outputs)
              = outputsView (dictGet k (dictInsert id sr result.step_results))
          rw [dictGet_insert_of_ne hk, dictGet_insert_of_ne hk]
          exact hm k
      · rw [if_neg ht]
        by_cases hk : id = k
        · subst hk
          show dictGet id ctx.step_outputs
              = outputsView (dictGet id (dictInsert id sr result.step_results))
          rw [dictGet_insert_self, hm id, hfid]
          simp [outputsView, ht]
        · show dictGet k ctx.step_outputs
              = outputsView (dictGet k (dictInsert id sr result.step_results))
          rw [dictGet_insert_of_ne hk]
          exact hm k
    rw [storeResults]
    split
    · split
      · exact fun k => hm1 k
      · split
        · exact fun k => hm1 k
        · exact ih _ _ hnd.2 hfresh2 hm1
    · exact ih _ _ hnd.2 hfresh2 hm1

/-- One level's merge: the coupling invariant survives, and the
entries of the untouched later levels stay unrecorded. -/
theorem level_outMatch_step (onFailure : String)
    (batchResults : List (String × StepResult)) (batchCtx : WorkflowExecutionContext)
    (ctx : WorkflowExecutionContext) (result : WorkflowResult)
    (lvlIds restIds : List String)
    (hkeys : ∀ pr ∈ batchResults, pr.1 ∈ lvlIds)
    (hknd : (batchResults.map Prod.fst).Nodup)
    (hout : batchCtx.step_outputs = ctx.step_outputs)
    (hdisj : ∀ a, a ∈ lvlIds → a ∈ restIds → False)
    (hfresh : ∀ id, (id ∈ lvlIds ∨ id ∈ restIds) →
      dictGet id result.step_results = none)
    (hm : OutMatch ctx result) :
    OutMatch (storeResults onFailure batchResults batchCtx result).1
        (storeResults onFailure batchResults batchCtx result).2 ∧
      ∀ id ∈ restIds,
        dictGet id (storeResults onFailure batchResults batchCtx result).2.step_results
          = none := by
  constructor
  · refine storeResults_outMatch onFailure batchResults batchCtx result hknd ?_ ?_
    · intro pr hpr
      exact hfresh pr.1 (Or.inl (hkeys pr hpr))
    · intro k
      rw [hout]
      exact hm k
  · intro id hid
    rw [storeResults_get_preserved onFailure batchResults batchCtx result id
      (fun q hq he => hdisj q.1 (hkeys q hq) (by rw [he]; exact hid))]
    exact hfresh id (Or.inr hid)

/-- With unique step ids, the levels emitted by the builder carry
pairwise-distinct ids, none of them already completed. -/
theorem buildLoop_ids_nodup (steps : List WorkflowStep)
    (H1 : (stepIds steps).Nodup) :
    ∀ (fuel : Nat) (completed : List String),
      (stepIds (buildLoop steps fuel completed).flatten).Nodup ∧
      ∀ x ∈ stepIds (buildLoop steps fuel completed).flatten, x ∉ completed := by
  intro fuel
  induction fuel with
  | zero =>
    intro completed
    rw [buildLoop]
    exact ⟨by simp [stepIds], by simp [stepIds]⟩
  | succ fuel ih =>
    intro completed
    rw [buildLoop]
    by_cases hg : completed.length < steps.length
    · rw [if_pos hg]
      by_cases hemp : (steps.filter (stepReady completed)).isEmpty
      · rw [if_pos hemp]
        exact ⟨by simp [stepIds], by simp [stepIds]⟩
      · rw [if_neg hemp]
        obtain ⟨ihnd, ihnin⟩ := ih (setInsertMany completed
          ((steps.filter (stepReady completed)).map (·.id)))
        have hcurnd : ((steps.filter (stepReady completed)).map (·.id)).Nodup := by
          have hsub : List.Sublist ((steps.filter (stepReady completed)).map (·.id))
              (steps.map (·.id)) := (List.filter_sublist steps).map _
          exact H1.sublist hsub
        have hcurnin : ∀ x ∈ (steps.filter (stepReady completed)).map (·.id),
            x ∉ completed := by
          intro x hx
          obtain ⟨t, ht, rfl⟩ := List.mem_map.mp hx
          have hr := (List.mem_filter.mp ht).2
          unfold stepReady at hr
          rw [Bool.and_eq_true] at hr
          simpa using hr.1
        constructor
        · show ((((steps.filter (stepReady completed)) ::
            buildLoop steps fuel _).flatten).map (·.id)).Nodup
          rw [List.flatten_cons, List.map_append, List.nodup_append]
          refine ⟨hcurnd, ihnd, ?_⟩
          intro a ha hb
          have hns := ihnin a hb
          rw [mem_setInsertMany] at hns
          push_neg at hns
          exact hns.2 ha
        · intro x hx
          rw [stepIds, List.flatten_cons, List.map_append, List.mem_append] at hx
          rcases hx with hx | hx
          · exact hcurnin x hx
          · have hns := ihnin x hx
            rw [mem_setInsertMany] at hns
            push_neg at hns
            exact hns.1
    · rw [if_neg hg]
      exact ⟨by simp [stepIds], by simp [stepIds]⟩

/-- The level loop keeps `step_outputs` coupled to `step_results` when
the upcoming levels' ids are distinct and not yet recorded. -/
theorem runLevels_outMatch (agents : AgentMap) (wf : Workflow) :
    ∀ (levels : List (List WorkflowStep)) (ctx : WorkflowExecutionContext)
      (result : WorkflowResult),
      (stepIds levels.flatten).Nodup →
      (∀ id ∈ stepIds levels.flatten, dictGet id result.step_results = none) →
      OutMatch ctx result →
      OutMatch (runLevels agents wf levels ctx result).1
        (runLevels agents wf levels ctx result).2 := by
  intro levels
  induction levels with
  | nil => intro ctx result _ _ h; exact h
  | cons lvl rest ih =>
    intro ctx result hnd hfresh hm
    have hnd2 : ((lvl.map (·.id)) ++ (rest.flatten.map (·.id))).Nodup := by
      have h0 : stepIds (lvl :: rest).flatten
          = (lvl.map (·.id)) ++ (rest.flatten.map (·.id)) := by
        rw [List.flatten_cons, stepIds, List.map_append]
      rw [h0] at hnd
      exact hnd
    have hsp := List.nodup_append.mp hnd2
    have hfresh2 : ∀ id, (id ∈ lvl.map (·.id) ∨ id ∈ rest.flatten.map (·.id)) →
        dictGet id result.step_results = none := by
      intro id hid
      apply hfresh
      rw [stepIds, List.flatten_cons, List.map_append, List.mem_append]
      exact hid
    -- properties of either batch executor
    have hseq := seqFold_spec agents wf lvl ctx []
    have hpar := parFold_spec agents wf ctx lvl []
    rw [runLevels]
    split
    · -- parallel batch
      rename_i hcfg
      have hpr1 : (executeStepBatchParallel agents lvl wf ctx).1
          = lvl.foldl
            (fun acc step => dictInsert step.id (executeStep agents step wf ctx).1 acc)
            [] := by
        rw [executeStepBatchParallel]
        split <;> rfl
      have hkeys : ∀ pr ∈ (executeStepBatchParallel agents lvl wf ctx).1,
          pr.1 ∈ lvl.map (·.id) := by
        intro pr hpr
        rw [hpr1] at hpr
        rcases hpar.1 pr hpr with h1 | h1
        · cases h1
        · exact h1
      have hknd : ((executeStepBatchParallel agents lvl wf ctx).1.map Prod.fst).Nodup := by
        rw [hpr1]
        exact hpar.2 List.nodup_nil
      have hout : (executeStepBatchParallel agents lvl wf ctx).2.step_outputs
          = ctx.step_outputs := by
        rw [executeStepBatchParallel]
        split <;> rfl
      have hlev := level_outMatch_step wf.config.on_failure
        (executeStepBatchParallel agents lvl wf ctx).1
        (executeStepBatchParallel agents lvl wf ctx).2 ctx result
        (lvl.map (·.id)) (rest.flatten.map (·.id)) hkeys hknd hout
        (fun a ha hb => hsp.2.2 ha hb) hfresh2 hm
      split
      · exact hlev.1
      · exact ih _ _ hsp.2.1 hlev.2 hlev.1
    · -- sequential batch
      have hkeys : ∀ pr ∈ (executeStepBatchSequential agents lvl wf ctx).1,
          pr.1 ∈ lvl.map (·.id) := by
        intro pr hpr
        rcases hseq.1 pr hpr with h1 | h1
        · cases h1
        · exact h1
      have hknd : ((executeStepBatchSequential agents lvl wf ctx).1.map Prod.fst).Nodup :=
        hseq.2.1 List.nodup_nil
      have hout : (executeStepBatchSequential agents lvl wf ctx).2.step_outputs
          = ctx.step_outputs := hseq.2.2
      have hlev := level_outMatch_step wf.config.on_failure
        (executeStepBatchSequential agents lvl wf ctx).1
        (executeStepBatchSequential agents lvl wf ctx).2 ctx result
        (lvl.map (·.id)) (rest.flatten.map (·.id)) hkeys hknd hout
        (fun a ha hb => hsp.2.2 ha hb) hfresh2 hm
      split
      · exact hlev.1
      · exact ih _ _ hsp.2.1 hlev.2 hlev.1

/-- C9 amended: for every completed run of a workflow with unique step
ids (data-model invariant) and a nonempty step list, `final_output`
equals the truthiness-filtered view of the last original step's merged
result: the last step's output when that step has a `StepResult` whose
output is truthy, and `None` otherwise (falsy output, or the step never
merged) — not unconditionally "the output of the last step". -/
theorem final_output_is_recorded_truthy_output (agents : AgentMap) (wf : Workflow)
    (input : List (String × Value))
    (hnd : (wf.steps.map (·.id)).Nodup)
    (hne : wf.steps ≠ [])
    (hcomp : (execute agents wf input).status = .completed) :
    (execute agents wf input).final_output =
      outputsView (dictGet (wf.steps.getLast hne).id
        (execute agents wf input).step_results) := by
  have hids := buildLoop_ids_nodup wf.steps hnd (wf.steps.length + 1) []
  have hmatch := runLevels_outMatch agents wf (buildDependencyGraph wf.steps)
    { workflow_id := wf.id, «variables» := input }
    { workflow_id := wf.id, status := .running }
    (by rw [buildDependencyGraph]; exact hids.1)
    (fun id _ => rfl)
    (fun k => rfl)
  rw [execute] at hcomp ⊢
  dsimp only at hcomp ⊢
  by_cases hf : (runLevels agents wf (buildDependencyGraph wf.steps)
      { workflow_id := wf.id, «variables» := input }
      { workflow_id := wf.id, status := .running }).2.status = .failed
  · rw [if_neg (by simp [hf])] at hcomp
    rw [hf] at hcomp
    exact absurd hcomp (by decide)
  · rw [if_pos (by simp [hf])]
    rw [List.getLast?_eq_getLast wf.steps hne]
    dsimp only
    exact hmatch (wf.steps.getLast hne).id

/-- Single-step workflow with a truthy output for the C9 witness. -/
def c9wWorkflow : Workflow :=
  { id := "wf9w", config := { name := "c9w" },
    steps := [{ id := "T", name := "T", agent_type := "task" }] }

/-- Agent for the C9 witness: succeeds with the truthy output
`{"v": 7}`. -/
def c9wAgents : AgentMap := fun _ _ =>
  .ok { success := true, data := some (.dict [("v", .int 7)]) } 1

/-- Witness for the amended C9 at a concrete completed run with a
truthy last output. -/
theorem final_output_is_recorded_truthy_output_witness :
    ((c9wWorkflow.steps.map (·.id)).Nodup ∧
      (execute c9wAgents c9wWorkflow []).status = .completed) ∧
    (execute c9wAgents c9wWorkflow []).final_output =
      outputsView (dictGet
        (c9wWorkflow.steps.getLast (fun h => List.noConfusion h)).id
        (execute c9wAgents c9wWorkflow []).step_results) :=
  ⟨⟨by decide, rfl⟩,
    final_output_is_recorded_truthy_output c9wAgents c9wWorkflow [] (by decide)
      (fun h => List.noConfusion h) rfl⟩

end Workflows
